import Mathlib

/-!
Shallow embedding of `micro_router` (src/include/micro_router/micro_router.hpp),
a tiny segment-based HTTP router. C++ strings are modelled as `List Char`,
`std::unordered_map<std::string, std::string>` as an association list with
unique keys, `std::optional` as `Option`, and handlers as pure functions
from request and response to a new response.
-/

namespace MicroRouter

/-- C++ `std::string` / `std::string_view` as a character sequence. -/
abbrev Str := List Char

/-- HTTP method enum (`micro_router::Method`). -/
inductive Method where
  | Any
  | Get
  | Post
  | Put
  | Patch
  | Delete_
  | Head
  | Options
deriving DecidableEq, Repr

/-- Route parameters map, name to value (`micro_router::Params`,
an `unordered_map`): modelled as an association list with unique keys. -/
abbrev Params := List (Str × Str)

/-- Map lookup (`unordered_map::find` / `::at`): the value stored under `k`. -/
def find_param : Params → Str → Option Str
  | [], _ => none
  | (k', v) :: rest, k => if k' = k then some v else find_param rest k

/-- Map `emplace` (`params.emplace(key, value)`): inserts only when the key
is absent; an existing entry is left unchanged. -/
def emplace (ps : Params) (k v : Str) : Params :=
  if (find_param ps k).isSome then ps else ps ++ [(k, v)]

/-- Minimal request shape (`micro_router::Request`). -/
structure Request where
  method : Method
  path : Str
  params : Params

/-- Minimal response shape (`micro_router::Response`). -/
structure Response where
  status : Int
  body : Str

/-- Handler signature (`micro_router::Handler`): the C++ handler mutates the
response in place; modelled as returning the new response. -/
abbrev Handler := Request → Response → Response

/-- A matched route (`micro_router::Match`). -/
structure Match where
  handler : Handler
  params : Params

/-- Segment kind (`detail::Segment::Kind`). -/
inductive SegmentKind where
  | Static
  | Param
deriving DecidableEq, Repr

/-- One compiled pattern segment (`detail::Segment`): static text or a
parameter name. -/
structure Segment where
  kind : SegmentKind
  text : Str
deriving DecidableEq, Repr

/-- `detail::is_slash`. -/
def is_slash (c : Char) : Bool := c == '/'

/-- `detail::strip_query`: cut the string at the first `?`, if any. -/
def strip_query (p : Str) : Str :=
  match p.findIdx? (· == '?') with
  | none => p
  | some q => p.take q

/-- `detail::trim_slashes`: remove all leading slashes, then all trailing
slashes. -/
def trim_slashes (p : Str) : Str :=
  ((p.dropWhile is_slash).reverse.dropWhile is_slash).reverse

/-- The scanning loop inside `detail::split_segments`: emit the chunk before
each `/`, and the final chunk; when a `/` is the last character the loop
index reaches the end and nothing more is emitted. `acc` holds the
characters of the current chunk, in reverse. -/
def split_go : Str → List Char → List Str
  | [], acc => [acc.reverse]
  | c :: rest, acc =>
    if c == '/' then
      acc.reverse :: (if rest = [] then [] else split_go rest [])
    else
      split_go rest (c :: acc)

/-- `detail::split_segments`: strip the query suffix, trim edge slashes, and
split what remains on `/` (an empty remainder yields no segments). -/
def split_segments (path : Str) : List Str :=
  let p := trim_slashes (strip_query path)
  if p = [] then [] else split_go p []

/-- `detail::is_braced_param`. -/
def is_braced_param (s : Str) : Bool :=
  decide (3 ≤ s.length) && decide (s.head? = some '{') && decide (s.getLast? = some '}')

/-- `detail::unbrace`: `substr(1, size - 2)`. -/
def unbrace (s : Str) : Str := (s.drop 1).take (s.length - 2)

/-- The per-token body of the loop in `detail::parse_pattern`: classify one
token as a Param or Static segment. -/
def classify_token (part : Str) : Segment :=
  if part ≠ [] ∧ part.head? = some ':' ∧ 1 < part.length then
    ⟨SegmentKind.Param, part.drop 1⟩
  else if is_braced_param part then
    if unbrace part ≠ [] then ⟨SegmentKind.Param, unbrace part⟩
    else ⟨SegmentKind.Static, part⟩
  else ⟨SegmentKind.Static, part⟩

/-- `detail::parse_pattern`: tokenize the pattern and classify each token. -/
def parse_pattern (pattern : Str) : List Segment :=
  (split_segments pattern).map classify_token

/-- `detail::method_matches`. -/
def method_matches (route_method req_method : Method) : Bool :=
  if route_method = Method.Any then true
  else decide (route_method = req_method)

/-- One registered route (`Router::Route`). -/
structure Route where
  method : Method
  pattern : Str
  segments : List Segment
  handler : Handler

/-- The router (`micro_router::Router`): an ordered route table. -/
structure Router where
  routes : List Route

/-- `Router::add`: compile the pattern and append the route. -/
def Router.add (r : Router) (method : Method) (pattern : Str) (handler : Handler) : Router :=
  ⟨r.routes ++ [⟨method, pattern, parse_pattern pattern, handler⟩]⟩

/-- The positional loop inside `Router::match`: walk segments and path parts
in lockstep; a Static segment requires equality (else the route is rejected),
a Param segment emplaces the part under the segment name. Called with equal
lengths; the catch-all row is unreachable then. -/
def capture_loop : List Segment → List Str → Params → Option Params
  | [], [], ps => some ps
  | seg :: segs, v :: vs, ps =>
    match seg.kind with
    | SegmentKind.Static => if v = seg.text then capture_loop segs vs ps else none
    | SegmentKind.Param => capture_loop segs vs (emplace ps seg.text v)
  | _, _, _ => none

/-- The scan over the route table inside `Router::match`: skip routes whose
method or segment count does not fit, otherwise run the positional loop;
the first route that passes returns immediately. -/
def match_scan (method : Method) (parts : List Str) : List Route → Option Match
  | [] => none
  | r :: rest =>
    if ¬ method_matches r.method method then match_scan method parts rest
    else if r.segments.length ≠ parts.length then match_scan method parts rest
    else
      match capture_loop r.segments parts [] with
      | some ps => some ⟨r.handler, ps⟩
      | none => match_scan method parts rest

/-- `Router::match`: tokenize the path and scan the table in registration
order. -/
def Router.matchReq (router : Router) (method : Method) (path : Str) : Option Match :=
  match_scan method (split_segments path) router.routes

/-- `Router::dispatch`: on a match, overwrite the request params and invoke
the handler; on no match, leave request and response untouched and report
failure. -/
def Router.dispatch (router : Router) (req : Request) (res : Response) :
    Bool × Request × Response :=
  match router.matchReq req.method req.path with
  | none => (false, req, res)
  | some m =>
    let req' : Request := { req with params := m.params }
    (true, req', m.handler req' res)

/-- `Router::size`. -/
def Router.size (router : Router) : Nat := router.routes.length

/-! Tokenizer lemmas. -/

theorem takeWhile_all {p : Char → Bool} : ∀ {l : Str}, (∀ c ∈ l, p c = true) → l.takeWhile p = l
  | [], _ => rfl
  | c :: l, h => by
    have hc : p c = true := h c (by simp)
    simp only [List.takeWhile_cons, hc, if_true]
    exact congrArg (c :: ·) (takeWhile_all fun x hx => h x (by simp [hx]))

theorem dropWhile_all {p : Char → Bool} : ∀ {l : Str}, (∀ c ∈ l, p c = true) → l.dropWhile p = []
  | [], _ => rfl
  | c :: l, h => by
    have hc : p c = true := h c (by simp)
    simp only [List.dropWhile_cons, hc, if_true]
    exact dropWhile_all fun x hx => h x (by simp [hx])

theorem strip_query_eq_takeWhile (p : Str) :
    strip_query p = p.takeWhile (fun c => !(c == '?')) := by
  induction p with
  | nil => rfl
  | cons c p ih =>
    by_cases hc : c == '?'
    · simp [strip_query, List.findIdx?_cons, hc, List.takeWhile_cons]
    · simp only [strip_query, List.findIdx?_cons, hc, if_false, List.findIdx?_start_succ,
        List.takeWhile_cons, Bool.not_false]
      rcases h : p.findIdx? (· == '?') with _ | k
      · simp only [h, Option.map_none']
        have hp : strip_query p = p := by simp [strip_query, h]
        rw [ih] at hp
        simp [hp]
      · simp only [h, Option.map_some', List.take_succ_cons]
        have hp : strip_query p = p.take k := by simp [strip_query, h]
        rw [ih] at hp
        simp [← hp]

theorem strip_query_append_query (p q : Str) :
    strip_query (p ++ '?' :: q) = strip_query p := by
  rw [strip_query_eq_takeWhile, strip_query_eq_takeWhile, List.takeWhile_append]
  split
  · next h =>
      have hp : p.takeWhile (fun c => !(c == '?')) = p :=
        (List.takeWhile_sublist _).eq_of_length h
      simp [List.takeWhile_cons, hp]
  · next h => rfl

theorem split_segments_query (p q : Str) :
    split_segments (p ++ '?' :: q) = split_segments p := by
  unfold split_segments
  rw [strip_query_append_query]

theorem is_slash_of_eq {c : Char} (h : c = '/') : is_slash c = true := by
  simp [is_slash, h]

theorem trim_slashes_append_left {a : Str} (t : Str) (ha : ∀ c ∈ a, c = '/') :
    trim_slashes (a ++ t) = trim_slashes t := by
  unfold trim_slashes
  rw [List.dropWhile_append_of_pos fun c hc => is_slash_of_eq (ha c hc)]

theorem trim_slashes_append_right {b : Str} (t : Str) (hb : ∀ c ∈ b, c = '/') :
    trim_slashes (t ++ b) = trim_slashes t := by
  unfold trim_slashes
  rw [List.dropWhile_append]
  split
  · next h =>
      rw [dropWhile_all fun c hc => is_slash_of_eq (hb c hc)]
      rw [List.isEmpty_iff] at h
      rw [h]
  · next h =>
      rw [List.reverse_append,
        List.dropWhile_append_of_pos fun c hc =>
          is_slash_of_eq (hb c (List.mem_reverse.mp hc))]

theorem split_segments_padded (s a b : Str) (ha : ∀ c ∈ a, c = '/') (hb : ∀ c ∈ b, c = '/') :
    split_segments (a ++ s ++ b) = split_segments s := by
  have key : trim_slashes (strip_query (a ++ s ++ b)) = trim_slashes (strip_query s) := by
    rw [strip_query_eq_takeWhile, strip_query_eq_takeWhile, List.append_assoc,
      List.takeWhile_append_of_pos (by intro c hc; simp [ha c hc])]
    rw [trim_slashes_append_left _ ha, List.takeWhile_append]
    split
    · next h =>
        have hs : s.takeWhile (fun c => !(c == '?')) = s :=
          (List.takeWhile_sublist _).eq_of_length h
        rw [hs, takeWhile_all (by intro c hc; simp [hb c hc])]
        exact trim_slashes_append_right s hb
    · next h => rfl
  unfold split_segments
  rw [key]

/-! Route-scan and capture lemmas. -/

/-- A route passes all three checks of the scan in `Router::match` for a
given request method and token sequence. -/
def route_passes (r : Route) (method : Method) (parts : List Str) : Bool :=
  method_matches r.method method && decide (r.segments.length = parts.length)
    && (capture_loop r.segments parts []).isSome

theorem match_scan_cons (r : Route) (rest : List Route) (m : Method) (parts : List Str) :
    match_scan m parts (r :: rest) =
      if ¬ method_matches r.method m then match_scan m parts rest
      else if r.segments.length ≠ parts.length then match_scan m parts rest
      else
        match capture_loop r.segments parts [] with
        | some ps => some ⟨r.handler, ps⟩
        | none => match_scan m parts rest := rfl

theorem match_scan_skip {r : Route} {m : Method} {parts : List Str} (rest : List Route)
    (h : route_passes r m parts = false) :
    match_scan m parts (r :: rest) = match_scan m parts rest := by
  unfold route_passes at h
  rw [match_scan_cons]
  by_cases h1 : method_matches r.method m
  · rw [if_neg (by simp [h1])]
    by_cases h2 : r.segments.length = parts.length
    · rw [if_neg (by simp [h2])]
      have h3 : (capture_loop r.segments parts []).isSome = false := by
        simpa [h1, h2] using h
      have h4 : capture_loop r.segments parts [] = none := by
        rcases hc : capture_loop r.segments parts [] with _ | ps
        · rfl
        · rw [hc] at h3
          simp at h3
      rw [h4]
    · rw [if_pos (by simpa using h2)]
  · rw [if_pos (by simpa using h1)]

theorem match_scan_hit {r : Route} {m : Method} {parts : List Str} (rest : List Route)
    (h : route_passes r m parts = true) :
    match_scan m parts (r :: rest) =
      (capture_loop r.segments parts []).map fun ps => ⟨r.handler, ps⟩ := by
  unfold route_passes at h
  simp only [Bool.and_eq_true, decide_eq_true_eq] at h
  obtain ⟨⟨h1, h2⟩, h3⟩ := h
  obtain ⟨ps, hps⟩ := Option.isSome_iff_exists.mp h3
  rw [match_scan_cons, if_neg (by simp [h1]), if_neg (by simp [h2]), hps]
  rfl

theorem emplace_mem {ps : Params} {k v : Str} {p : Str × Str} (h : p ∈ emplace ps k v) :
    p ∈ ps ∨ p = (k, v) := by
  unfold emplace at h
  split at h
  · exact Or.inl h
  · rcases List.mem_append.mp h with h | h
    · exact Or.inl h
    · exact Or.inr (List.mem_singleton.mp h)

theorem capture_loop_static_agree {segs : List Segment} :
    ∀ {parts : List Str} {ps0 ps : Params},
    capture_loop segs parts ps0 = some ps →
    ∀ sp ∈ segs.zip parts, sp.1.kind = SegmentKind.Static → sp.2 = sp.1.text := by
  induction segs with
  | nil =>
    intro parts ps0 ps h sp hsp
    simp at hsp
  | cons seg segs ih =>
    intro parts ps0 ps h sp hsp hstatic
    obtain ⟨k, t⟩ := seg
    cases parts with
    | nil => exact absurd h (by simp [capture_loop])
    | cons v vs =>
      rw [List.zip_cons_cons, List.mem_cons] at hsp
      cases k with
      | Static =>
        simp only [capture_loop] at h
        split at h
        · next he =>
            rcases hsp with rfl | hsp
            · exact he
            · exact ih h sp hsp hstatic
        · exact absurd h (by simp)
      | Param =>
        simp only [capture_loop] at h
        rcases hsp with rfl | hsp
        · simp at hstatic
        · exact ih h sp hsp hstatic

theorem capture_loop_mem {segs : List Segment} :
    ∀ {parts : List Str} {ps0 ps : Params},
    capture_loop segs parts ps0 = some ps →
    ∀ p ∈ ps, p ∈ ps0 ∨ (⟨SegmentKind.Param, p.1⟩, p.2) ∈ segs.zip parts := by
  induction segs with
  | nil =>
    intro parts ps0 ps h p hp
    cases parts with
    | nil =>
      obtain rfl : ps0 = ps := by simpa [capture_loop] using h
      exact Or.inl hp
    | cons v vs => exact absurd h (by simp [capture_loop])
  | cons seg segs ih =>
    intro parts ps0 ps h p hp
    obtain ⟨k, t⟩ := seg
    cases parts with
    | nil => exact absurd h (by simp [capture_loop])
    | cons v vs =>
      cases k with
      | Static =>
        simp only [capture_loop] at h
        split at h
        · rcases ih h p hp with h' | h'
          · exact Or.inl h'
          · exact Or.inr (by rw [List.zip_cons_cons]; exact List.mem_cons_of_mem _ h')
        · exact absurd h (by simp)
      | Param =>
        simp only [capture_loop] at h
        rcases ih h p hp with h' | h'
        · rcases emplace_mem h' with h'' | h''
          · exact Or.inl h''
          · right
            rw [List.zip_cons_cons, h'']
            exact List.mem_cons_self _ _
        · right
          rw [List.zip_cons_cons]
          exact List.mem_cons_of_mem _ h'

theorem capture_loop_all_static : ∀ (parts : List Str) (ps : Params),
    capture_loop (parts.map fun t => ⟨SegmentKind.Static, t⟩) parts ps = some ps
  | [], _ => rfl
  | v :: vs, ps => by
    simp only [List.map_cons, capture_loop, if_pos rfl]
    exact capture_loop_all_static vs ps

theorem parse_all_static {s : Str}
    (h : ∀ t ∈ split_segments s, classify_token t = ⟨SegmentKind.Static, t⟩) :
    parse_pattern s = (split_segments s).map fun t => ⟨SegmentKind.Static, t⟩ :=
  List.map_congr_left h

/-- The value the positional loop stores under a name comes from the first
Param segment carrying that name (spec side of the amended C1). -/
def first_capture : List Segment → List Str → Str → Option Str
  | seg :: segs, v :: vs, n =>
    if seg.kind = SegmentKind.Param ∧ seg.text = n then some v else first_capture segs vs n
  | _, _, _ => none

theorem find_param_append (a b : Params) (n : Str) :
    find_param (a ++ b) n = (find_param a n).or (find_param b n) := by
  induction a with
  | nil => rfl
  | cons p a ih =>
    obtain ⟨k, v⟩ := p
    by_cases h : k = n <;> simp [find_param, h, ih]

theorem find_param_emplace (ps : Params) (k v n : Str) :
    find_param (emplace ps k v) n =
      (find_param ps n).or (if k = n then some v else none) := by
  unfold emplace
  split
  · next h =>
    cases hn : find_param ps n with
    | some w => simp
    | none =>
      by_cases hkn : k = n
      · subst hkn
        rw [hn] at h
        simp at h
      · simp [hkn]
  · next h =>
    rw [find_param_append]
    rfl

theorem capture_loop_find {segs : List Segment} :
    ∀ {parts : List Str} {ps0 ps : Params} {n : Str},
    capture_loop segs parts ps0 = some ps →
    find_param ps n = (find_param ps0 n).or (first_capture segs parts n) := by
  induction segs with
  | nil =>
    intro parts ps0 ps n h
    cases parts with
    | nil =>
      obtain rfl : ps0 = ps := by simpa [capture_loop] using h
      cases hn : find_param ps0 n <;> simp [first_capture, hn]
    | cons v vs => exact absurd h (by simp [capture_loop])
  | cons seg segs ih =>
    intro parts ps0 ps n h
    obtain ⟨k, t⟩ := seg
    cases parts with
    | nil => exact absurd h (by simp [capture_loop])
    | cons v vs =>
      cases k with
      | Static =>
        simp only [capture_loop] at h
        split at h
        · rw [ih h]
          simp [first_capture]
        · exact absurd h (by simp)
      | Param =>
        simp only [capture_loop] at h
        rw [ih h, find_param_emplace]
        by_cases hkn : t = n
        · cases hn : find_param ps0 n <;> simp [first_capture, hn, hkn]
        · cases hn : find_param ps0 n <;> simp [first_capture, hn, hkn]

/-! Claim theorems: tokenization and method checks. -/

/-- C8: tokenization removes all leading and all trailing slash characters:
padding any path with slashes on either side does not change its token
sequence, and "/a/", "/a", "//a//" all tokenize to ["a"]. -/
theorem slashes_tolerated :
    (∀ (s a b : Str), (∀ c ∈ a, c = '/') → (∀ c ∈ b, c = '/') →
      split_segments (a ++ s ++ b) = split_segments s) ∧
    split_segments "/a/".toList = ["a".toList] ∧
    split_segments "/a".toList = ["a".toList] ∧
    split_segments "//a//".toList = ["a".toList] :=
  ⟨fun s a b ha hb => split_segments_padded s a b ha hb, by decide, by decide, by decide⟩

/-- Witness for C8 at a concrete padded path (with a query suffix inside). -/
theorem slashes_tolerated_witness :
    split_segments ("//".toList ++ "a?q".toList ++ "/".toList) = split_segments "a?q".toList :=
  slashes_tolerated.1 "a?q".toList "//".toList "/".toList (by decide) (by decide)

/-- C7: query suffixes are ignored, both when matching a path and when
compiling a pattern: appending "?" and any query string changes neither the
match result nor the compiled segments. -/
theorem query_suffix_ignored (router : Router) (m : Method) (p q : Str) :
    router.matchReq m (p ++ '?' :: q) = router.matchReq m p ∧
    parse_pattern (p ++ '?' :: q) = parse_pattern p := by
  constructor
  · unfold Router.matchReq
    rw [split_segments_query]
  · unfold parse_pattern
    rw [split_segments_query]

/-- C6: a route passes the method check iff its method is the wildcard Any or
equals the request method exactly; GET-only "/health" does not answer POST. -/
theorem method_check_exact :
    (∀ rm m : Method, method_matches rm m = true ↔ (rm = Method.Any ∨ rm = m)) ∧
    (∀ h : Handler,
      Router.matchReq ⟨[⟨Method.Get, "/health".toList, parse_pattern "/health".toList, h⟩]⟩
        Method.Post "/health".toList = none) := by
  constructor
  · intro rm m
    unfold method_matches
    by_cases h : rm = Method.Any <;> simp [h]
  · intro h
    rfl

/-- Witness for C6: the method check at concrete methods. -/
theorem method_check_exact_witness : method_matches Method.Get Method.Get = true :=
  (method_check_exact.1 Method.Get Method.Get).mpr (Or.inr rfl)

/-- C9: when no route matches, dispatch returns false and leaves both the
request (in particular its parameter mapping) and the response unchanged;
this covers the empty route table. -/
theorem dispatch_no_match_noop (router : Router) (req : Request) (res : Response) :
    (router.matchReq req.method req.path = none →
      router.dispatch req res = (false, req, res)) ∧
    (router.routes = [] → router.dispatch req res = (false, req, res)) := by
  constructor
  · intro h
    unfold Router.dispatch
    rw [h]
  · intro h
    unfold Router.dispatch Router.matchReq
    rw [h]
    rfl

/-- Witness for C9: empty router, concrete request and response. -/
theorem dispatch_no_match_noop_witness :
    Router.dispatch ⟨[]⟩ ⟨Method.Get, "/x".toList, []⟩ ⟨200, []⟩ =
      (false, ⟨Method.Get, "/x".toList, []⟩, ⟨200, []⟩) :=
  (dispatch_no_match_noop ⟨[]⟩ ⟨Method.Get, "/x".toList, []⟩ ⟨200, []⟩).2 rfl

/-- C10: a request carrying the wildcard method Any matches only routes that
were registered with Any: the wildcard test is route-side only. -/
theorem any_request_matches_only_any_routes :
    (∀ rm : Method, rm ≠ Method.Any → method_matches rm Method.Any = false) ∧
    (∀ (routes : List Route) (path : Str), (∀ r ∈ routes, r.method ≠ Method.Any) →
      Router.matchReq ⟨routes⟩ Method.Any path = none) := by
  constructor
  · intro rm h
    simp [method_matches, h]
  · intro routes path
    unfold Router.matchReq
    induction routes with
    | nil => intro _; rfl
    | cons r rest ih =>
      intro h
      have hr : r.method ≠ Method.Any := h r (by simp)
      have hm : method_matches r.method Method.Any = false := by simp [method_matches, hr]
      simp only [match_scan, hm, Bool.false_eq_true, not_false_eq_true, if_true]
      exact ih fun r' hr' => h r' (by simp [hr'])

/-- Witness for C10: a single GET route is skipped when the request method is
the wildcard Any. -/
theorem any_request_matches_only_any_routes_witness :
    Router.matchReq ⟨[⟨Method.Get, "/a".toList, parse_pattern "/a".toList, fun _ r => r⟩]⟩
      Method.Any "/a".toList = none :=
  any_request_matches_only_any_routes.2
    [⟨Method.Get, "/a".toList, parse_pattern "/a".toList, fun _ r => r⟩] "/a".toList
    (by
      intro r hr
      rw [List.mem_singleton.mp hr]
      decide)

/-- C2: the first route in registration order that passes the method,
segment-count and positional checks is the one returned, and the routes
registered after it play no role at all (scanning stops there). -/
theorem first_registered_route_wins (pre post : List Route) (r : Route) (m : Method) (path : Str)
    (hpre : ∀ r' ∈ pre, route_passes r' m (split_segments path) = false)
    (hr : route_passes r m (split_segments path) = true) :
    Router.matchReq ⟨pre ++ r :: post⟩ m path =
      (capture_loop r.segments (split_segments path) []).map fun ps => ⟨r.handler, ps⟩ := by
  unfold Router.matchReq
  revert hpre
  induction pre with
  | nil =>
    intro _
    exact match_scan_hit post hr
  | cons r' pre ih =>
    intro hpre
    rw [List.cons_append, match_scan_skip _ (hpre r' (by simp))]
    exact ih fun x hx => hpre x (by simp [hx])

/-- Witness for C2: a param route registered before a static route at the
same position wins on a path both match; the later static route is ignored. -/
theorem first_registered_route_wins_witness :
    Router.matchReq ⟨[⟨Method.Any, "/x/:a".toList, parse_pattern "/x/:a".toList, fun _ r => r⟩,
        ⟨Method.Any, "/x/y".toList, parse_pattern "/x/y".toList, fun _ r => r⟩]⟩
      Method.Get "/x/y".toList =
      some ⟨fun _ r => r, [("a".toList, "y".toList)]⟩ := by
  have h := first_registered_route_wins []
    [⟨Method.Any, "/x/y".toList, parse_pattern "/x/y".toList, fun _ r => r⟩]
    ⟨Method.Any, "/x/:a".toList, parse_pattern "/x/:a".toList, fun _ r => r⟩
    Method.Get "/x/y".toList (by intro r' hr'; simp at hr') rfl
  exact h.trans rfl

/-- C4: a route can be selected only when its compiled segment count equals
the path token count; in particular the pattern "/a/:b" matches neither "/a"
nor "/a/b/c", whatever the methods or the handler. -/
theorem match_requires_equal_segment_count :
    (∀ (routes : List Route) (m : Method) (parts : List Str) (mt : Match),
      match_scan m parts routes = some mt →
      ∃ r ∈ routes, r.segments.length = parts.length) ∧
    (∀ (rm m : Method) (h : Handler),
      Router.matchReq ⟨[⟨rm, "/a/:b".toList, parse_pattern "/a/:b".toList, h⟩]⟩
        m "/a".toList = none ∧
      Router.matchReq ⟨[⟨rm, "/a/:b".toList, parse_pattern "/a/:b".toList, h⟩]⟩
        m "/a/b/c".toList = none) := by
  constructor
  · intro routes m parts mt
    induction routes with
    | nil => intro h; simp [match_scan] at h
    | cons r rest ih =>
      intro h
      rw [match_scan_cons] at h
      by_cases h1 : method_matches r.method m
      · rw [if_neg (by simp [h1])] at h
        by_cases h2 : r.segments.length = parts.length
        · exact ⟨r, by simp, h2⟩
        · rw [if_pos (by simpa using h2)] at h
          obtain ⟨r', hr', hlen⟩ := ih h
          exact ⟨r', by simp [hr'], hlen⟩
      · rw [if_pos (by simpa using h1)] at h
        obtain ⟨r', hr', hlen⟩ := ih h
        exact ⟨r', by simp [hr'], hlen⟩
  · intro rm m h
    constructor
    · show match_scan m (split_segments "/a".toList)
        [⟨rm, "/a/:b".toList, parse_pattern "/a/:b".toList, h⟩] = none
      rw [match_scan_skip []
        (by
          simp only [route_passes]
          rw [show decide ((parse_pattern "/a/:b".toList).length =
              (split_segments "/a".toList).length) = false from by decide]
          simp)]
      rfl
    · show match_scan m (split_segments "/a/b/c".toList)
        [⟨rm, "/a/:b".toList, parse_pattern "/a/:b".toList, h⟩] = none
      rw [match_scan_skip []
        (by
          simp only [route_passes]
          rw [show decide ((parse_pattern "/a/:b".toList).length =
              (split_segments "/a/b/c".toList).length) = false from by decide]
          simp)]
      rfl

/-- Witness for C4: a concrete successful match exhibits a route whose
segment count equals the token count. -/
theorem match_requires_equal_segment_count_witness :
    ∃ r ∈ [(⟨Method.Any, "/a".toList, parse_pattern "/a".toList, fun _ x => x⟩ : Route)],
      r.segments.length = (split_segments "/a".toList).length :=
  match_requires_equal_segment_count.1
    [⟨Method.Any, "/a".toList, parse_pattern "/a".toList, fun _ x => x⟩]
    Method.Get (split_segments "/a".toList)
    ⟨(⟨Method.Any, "/a".toList, parse_pattern "/a".toList, fun _ x => x⟩ : Route).handler, []⟩
    rfl

/-- C5: in the positional loop, Static segments require exact equality with
the path part, every captured pair comes verbatim from a Param segment and
the path part at the same position, and an all-static pattern matched
against its own literal path succeeds with an empty parameter mapping. -/
theorem positional_check_and_capture :
    (∀ (segs : List Segment) (parts : List Str) (ps : Params),
      capture_loop segs parts [] = some ps →
      (∀ sp ∈ segs.zip parts, sp.1.kind = SegmentKind.Static → sp.2 = sp.1.text) ∧
      (∀ p ∈ ps, (⟨SegmentKind.Param, p.1⟩, p.2) ∈ segs.zip parts)) ∧
    (∀ (s : Str) (rm m : Method) (h : Handler),
      (∀ t ∈ split_segments s, classify_token t = ⟨SegmentKind.Static, t⟩) →
      method_matches rm m = true →
      Router.matchReq ⟨[⟨rm, s, parse_pattern s, h⟩]⟩ m s = some ⟨h, []⟩) := by
  constructor
  · intro segs parts ps h
    refine ⟨capture_loop_static_agree h, fun p hp => ?_⟩
    rcases capture_loop_mem h p hp with h' | h'
    · simp at h'
    · exact h'
  · intro s rm m h hstatic hm
    show match_scan m (split_segments s) [⟨rm, s, parse_pattern s, h⟩] = some ⟨h, []⟩
    rw [match_scan_cons, if_neg (by simp [hm]), parse_all_static hstatic,
      if_neg (by simp), capture_loop_all_static]

/-- Witness for C5: a concrete all-static route matched against its own
pattern text yields an empty parameter mapping. -/
theorem positional_check_and_capture_witness :
    Router.matchReq ⟨[⟨Method.Get, "/st/path".toList, parse_pattern "/st/path".toList,
        fun _ r => r⟩]⟩ Method.Get "/st/path".toList = some ⟨fun _ r => r, []⟩ :=
  positional_check_and_capture.2 "/st/path".toList Method.Get Method.Get (fun _ r => r)
    (by decide) rfl

/-- C1 counterexample: for the pattern "/a/:x/:x" and the path "/a/1/2" the
value stored under "x" is "1", the part at the FIRST occurrence of the name,
and not "2", the part at the last occurrence: `emplace` never overwrites. -/
theorem dup_param_last_write_counterexample :
    (Router.matchReq ⟨[⟨Method.Any, "/a/:x/:x".toList, parse_pattern "/a/:x/:x".toList,
        fun _ r => r⟩]⟩ Method.Get "/a/1/2".toList).map (fun mt => find_param mt.params "x".toList)
      = some (some "1".toList) ∧ "1".toList ≠ "2".toList := by
  constructor
  · rfl
  · decide

/-- C1 (amended): when the same name occurs in several Param segments, the
captured value stored under that name is the path part at the EARLIEST
(first) occurrence of the name: later occurrences never overwrite it. -/
theorem dup_param_first_occurrence (segs : List Segment) (parts : List Str) (ps : Params)
    (n : Str) (h : capture_loop segs parts [] = some ps) :
    find_param ps n = first_capture segs parts n := by
  rw [capture_loop_find h]
  rfl

/-- Witness for C1 at the duplicate-name pattern "/a/:x/:x" on "/a/1/2". -/
theorem dup_param_first_occurrence_witness :
    find_param [("x".toList, "1".toList)] "x".toList =
      first_capture (parse_pattern "/a/:x/:x".toList) (split_segments "/a/1/2".toList)
        "x".toList :=
  dup_param_first_occurrence (parse_pattern "/a/:x/:x".toList)
    (split_segments "/a/1/2".toList) [("x".toList, "1".toList)] "x".toList rfl

/-! Token classification, spec side (C3). -/

/-- The text strictly between the first and last character of a token. -/
def inner_text (t : Str) : Str := (t.drop 1).dropLast

/-- Token classification as the specification words it: a token starting with
":" of total length at least 2 is a Param named by the text after the colon;
a token wrapped in "{" and "}" with non-empty inner text is a Param named by
the inner text; every other token (including "\x7b\x7d") is a Static segment
whose literal text is the token itself. -/
def classify_spec (t : Str) : Segment :=
  if t.head? = some ':' ∧ 2 ≤ t.length then ⟨SegmentKind.Param, t.drop 1⟩
  else if t.head? = some '{' ∧ t.getLast? = some '}' ∧ inner_text t ≠ [] then
    ⟨SegmentKind.Param, inner_text t⟩
  else ⟨SegmentKind.Static, t⟩

theorem unbrace_eq_inner_text (t : Str) : unbrace t = inner_text t := by
  unfold unbrace inner_text
  rw [List.dropLast_eq_take, List.length_drop]
  congr 1

theorem inner_text_length (t : Str) : (inner_text t).length = t.length - 2 := by
  simp only [inner_text, List.length_dropLast, List.length_drop]
  omega

theorem classify_token_eq_spec (t : Str) : classify_token t = classify_spec t := by
  unfold classify_token classify_spec
  by_cases h1 : t.head? = some ':' ∧ 2 ≤ t.length
  · have hne : t ≠ [] := by
      intro he
      rw [he] at h1
      simp at h1
    rw [if_pos ⟨hne, h1.1, h1.2⟩, if_pos h1]
  · rw [if_neg (fun hc => h1 ⟨hc.2.1, hc.2.2⟩), if_neg h1]
    by_cases h2 : is_braced_param t = true
    · obtain ⟨h3, hh, hlast⟩ : 3 ≤ t.length ∧ t.head? = some '{' ∧ t.getLast? = some '}' := by
        simpa [is_braced_param, and_assoc] using h2
      have hinner : inner_text t ≠ [] := by
        intro he
        have hlen0 : t.length - 2 = 0 := by
          rw [← inner_text_length, he]
          rfl
        omega
      rw [if_pos h2, unbrace_eq_inner_text, if_pos hinner, if_pos ⟨hh, hlast, hinner⟩]
    · rw [if_neg h2, if_neg]
      rintro ⟨hh, hlast, hinner⟩
      have h3 : 3 ≤ t.length := by
        have hpos : 0 < (inner_text t).length := List.length_pos.mpr hinner
        rw [inner_text_length] at hpos
        omega
      exact h2 (by simp [is_braced_param, h3, hh, hlast])

/-- C3: the pattern compiler classifies every "/"-delimited token exactly as
the specification describes (colon tokens of length at least 2 and wrapped
brace tokens with non-empty inner text become Param segments, everything
else, including "\x7b\x7d", becomes a Static segment with the token as its
literal text), and it is total: every input string yields a segment
sequence, one segment per token. -/
theorem parse_pattern_classification :
    (∀ pattern : Str, parse_pattern pattern = (split_segments pattern).map classify_spec) ∧
    (∀ t : Str, classify_token t = classify_spec t) :=
  ⟨fun _ => List.map_congr_left fun t _ => classify_token_eq_spec t,
   classify_token_eq_spec⟩

end MicroRouter
